import Mathlib

/-!
Verification development for the PORC room-correction pipeline (porc.py).

Signals are shallowly embedded as Lean lists: exact rationals (`List ℚ`)
where the code's float arithmetic is purely field operations, and real /
complex numbers where transcendental functions (powers, cosine, the DFT
kernel) appear.  Matrices of second-order-section coefficients are
represented column-wise as `List (List ℚ)`, matching the code's use of
`Bm[:,k]` / `Am[:,k]`.  Fallible operations (normalizing an all-zero
signal, numpy elementwise products on mismatched shapes) return `Option`.
-/

namespace Porc

/-- `np.fabs(y).max()` folded with initial value 0 (for nonempty `y` this is
the maximum absolute value of the samples, which are compared after `fabs`,
hence all nonnegative).  Generic over the scalar field so that the same
definition serves the rational and the real signals. -/
def maxAbs {α : Type} [LinearOrderedField α] (y : List α) : α :=
  y.foldr (fun a m => max |a| m) 0

/-- `norm` from porc.py line 76: `y / np.fabs(y).max()`.  Division by zero
(all samples zero, or empty signal) is the failure case and yields `none`. -/
def norm {α : Type} [LinearOrderedField α] [DecidableEq α] (y : List α) :
    Option (List α) :=
  if maxAbs y = 0 then none else some (y.map (fun a => a / maxAbs y))

/-- The minimum-phase cepstral window built in `rceps` (porc.py line 65):
`np.hstack((1., 2.*np.ones(n/2-1), np.ones(1-n%2), np.zeros(n/2-1)))`,
with Python 2 floor division `n/2`.  Faithful for `n ≥ 2`; for `n < 2` the
code raises (`np.ones` of a negative count). -/
def rcepsWindow (n : ℕ) : List ℚ :=
  [1] ++ List.replicate (n / 2 - 1) 2 ++ List.replicate (1 - n % 2) 1 ++
    List.replicate (n / 2 - 1) 0

/-- The window exactly as the specification describes it (claim C1):
length `n`, `w[0]=1`, `w[1..n/2-1]=2`, `w[n/2]=1` if `n` odd else `0`,
`w[n/2+1..]=0`.  Stated from the spec's words, for comparison with
`rcepsWindow`. -/
def rcepsWindowSpec (n : ℕ) : List ℚ :=
  (List.range n).map fun i =>
    if i = 0 then 1
    else if i < n / 2 then 2
    else if i = n / 2 then (if n % 2 = 1 then 1 else 0)
    else 0

/-- The window with the center-tap parity the code actually implements:
`w[n/2] = 1` (used for even `n`, where the code's window has length `n`). -/
def rcepsWindowEvenSpec (n : ℕ) : List ℚ :=
  (List.range n).map fun i =>
    if i = 0 then 1
    else if i < n / 2 then 2
    else if i = n / 2 then 1
    else 0

/-- numpy's elementwise product `w * y` on 1-D arrays: defined when the
lengths agree, or when either operand has length 1 (broadcasting); any
other shape combination raises, modelled as `none`. -/
def elemMul (w y : List ℚ) : Option (List ℚ) :=
  if w.length = y.length then some (List.zipWith (fun a b => a * b) w y)
  else if w.length = 1 then some (y.map (fun b => w.getD 0 0 * b))
  else if y.length = 1 then some (w.map (fun a => a * y.getD 0 0))
  else none

/-- First `n` outputs of `scipy.signal.lfilter(b, a, x)`: the direct-form
difference equation `a[0]·y[m] = Σ_i b[i]·x[m-i] - Σ_{j≥1} a[j]·y[m-j]`.
The list of previously produced outputs is threaded through structurally;
coefficients beyond the ends of `b`/`a` read as 0 via `getD`. -/
def lfilterStep (b a x : List ℚ) : ℕ → List ℚ
  | 0 => []
  | m + 1 =>
    lfilterStep b a x m ++
      [((∑ i ∈ Finset.range (m + 1), b.getD i 0 * x.getD (m - i) 0) -
        (∑ j ∈ Finset.range m,
          a.getD (j + 1) 0 * (lfilterStep b a x m).getD (m - 1 - j) 0)) /
            a.getD 0 0]

/-- `scipy.signal.lfilter(b, a, x)`: one output sample per input sample. -/
def lfilter (b a x : List ℚ) : List ℚ :=
  lfilterStep b a x x.length

/-- `parfilt` from porc.py lines 69-74: start from `np.zeros(x.size)`, add
the output of one second-order section per column of `Bm`/`Am`, then add
the direct FIR path `lfilter(FIR, [1], x)`.  `Bm`, `Am` are stored as
lists of columns. -/
def parfilt (Bm Am : List (List ℚ)) (FIR : List ℚ) (x : List ℚ) : List ℚ :=
  List.zipWith (fun u v => u + v)
    ((List.range Am.length).foldl
      (fun y k => List.zipWith (fun u v => u + v) y
        (lfilter (Bm.getD k []) (Am.getD k []) x))
      (List.replicate x.length (0 : ℚ)))
    (lfilter FIR [1] x)

/-! ### The pole grid (porc.py lines 89-96) -/

/-- The fixed pole radius `R = 0.5` (porc.py line 89). -/
def R : ℝ := 0.5

/-- `np.logspace(a, b, n)`: `n` points `10^(a + i·(b-a)/(n-1))`,
`i = 0, …, n-1`. -/
noncomputable def logspace (a b : ℝ) (n : ℕ) : List ℝ :=
  (List.range n).map fun i : ℕ => (10 : ℝ) ^ (a + (i : ℝ) * (b - a) / ((n : ℝ) - 1))

/-- `fplog` (porc.py lines 91-92): 13 log-spaced frequencies in
`[30, 200]` Hz followed by 12 in `[250, 18000]` Hz. -/
noncomputable def fplog : List ℝ :=
  logspace (Real.logb 10 30) (Real.logb 10 200) 13 ++
    logspace (Real.logb 10 250) (Real.logb 10 18000) 12

/-- `wp = 2·π·fplog / Fs` (porc.py line 94): normalized angular
frequencies. -/
noncomputable def wpGrid (Fs : ℝ) : List ℝ :=
  fplog.map fun f => 2 * Real.pi * f / Fs

/-- One pole `p = R^(ω/π) · e^(iω)` (porc.py line 95). -/
noncomputable def poleOf (w : ℝ) : ℂ :=
  ((R ^ (w / Real.pi) : ℝ) : ℂ) * Complex.exp (Complex.I * (w : ℂ))

/-- `plog = hstack((p, conj(p)))` (porc.py line 96): the poles followed by
their complex conjugates. -/
noncomputable def plog (Fs : ℝ) : List ℂ :=
  (wpGrid Fs).map poleOf ++ ((wpGrid Fs).map poleOf).map (starRingEnd ℂ)

/-! ### DFT, frequency-domain resampling, and the Equalizer Finalizer
(porc.py lines 114-117 and 134-138) -/

/-- The DFT kernel `e^(-2πi/N)`; `fft` sums its powers, so
`X[k] = Σ_n x[n]·e^(-2πi·k·n/N)`, numpy's convention. -/
noncomputable def wN (N : ℕ) : ℂ :=
  Complex.exp (-(2 * Real.pi * Complex.I) / N)

/-- One output bin of a DFT-style sum: `Σ_n x[n] · w^(k·n)`. -/
noncomputable def dftPoint (w : ℂ) (x : List ℂ) (k : ℕ) : ℂ :=
  (List.zipWith (fun xn n => xn * w ^ (k * n)) x (List.range x.length)).sum

/-- `np.fft.fft` / `scipy.fft`: forward transform. -/
noncomputable def fft (x : List ℂ) : List ℂ :=
  (List.range x.length).map (dftPoint (wN x.length) x)

/-- `np.fft.ifft` / `scipy.ifft`: inverse transform,
`x[n] = (1/N) Σ_k X[k]·e^(2πi·k·n/N)`. -/
noncomputable def ifft (X : List ℂ) : List ℂ :=
  (List.range X.length).map fun n =>
    dftPoint (wN X.length)⁻¹ X n / (X.length : ℂ)

/-- The periodic (`fftbins=True`) Hann window used by
`scipy.signal.get_window('hanning', M)`: `0.5 - 0.5·cos(2πn/M)`, with the
degenerate guard returning all-ones for `M ≤ 1`. -/
noncomputable def hanning (M : ℕ) : List ℝ :=
  if M ≤ 1 then List.replicate M 1
  else (List.range M).map fun n : ℕ => 1 / 2 - Real.cos (2 * Real.pi * n / M) / 2

/-- `np.fft.ifftshift`: rotate so that the centered zero-frequency sample
comes first, `x[⌊len/2⌋:] ++ x[:⌊len/2⌋]`. -/
def ifftshift (l : List ℝ) : List ℝ :=
  l.drop (l.length / 2) ++ l.take (l.length / 2)

/-- `scipy.signal.resample(x, num, window)` (2012-era scipy, as used by
porc.py): forward-transform, optionally multiply by the ifftshifted Hann
window, keep the `(N+1)/2` lowest-frequency bins and the `N - (N+1)/2`
highest bins (`N = min num Nx`) with zeros in between, inverse-transform
and scale by `num/Nx`.  `win = true` selects `window='hanning'`. -/
noncomputable def resample (x : List ℂ) (num : ℕ) (win : Bool) : List ℂ :=
  (ifft
    ((if win then
        List.zipWith (fun (w : ℝ) (z : ℂ) => (w : ℂ) * z) (ifftshift (hanning x.length))
          (fft x)
      else fft x).take ((min num x.length + 1) / 2) ++
      List.replicate (num - min num x.length) (0 : ℂ) ++
      (if win then
        List.zipWith (fun (w : ℝ) (z : ℂ) => (w : ℂ) * z) (ifftshift (hanning x.length))
          (fft x)
      else fft x).drop
        (x.length - (min num x.length - (min num x.length + 1) / 2)))).map
    (fun z => z * ((num : ℂ) / (x.length : ℂ)))

/-- The Equalizer Finalizer (porc.py lines 137-138): resample the spectrum
to `ntaps` points with a Hann window, inverse-transform, take the real
part, normalize. -/
noncomputable def finalize (S : List ℂ) (ntaps : ℕ) : Option (List ℝ) :=
  norm ((ifft (resample S ntaps true)).map Complex.re)

/-- Second column of the two-row target file `[[0, 1.0], [1, 1.0]]`
(claim C8). -/
def targetCol : List ℂ := [1, 1]

/-- The curve-file branch of the Target Response Builder (porc.py line
117): `outf = fft(resample(ifft(t[:,1]), m))`, `m` the length of the
minimum-phase response. -/
noncomputable def targetSpectrum (m : ℕ) : List ℂ :=
  fft (resample (ifft targetCol) m false)

/-! ### Helper lemmas about `maxAbs` and `norm` -/

theorem maxAbs_nil {α : Type} [LinearOrderedField α] : maxAbs ([] : List α) = 0 :=
  rfl

theorem maxAbs_cons {α : Type} [LinearOrderedField α] (a : α) (t : List α) :
    maxAbs (a :: t) = max |a| (maxAbs t) :=
  rfl

theorem maxAbs_nonneg {α : Type} [LinearOrderedField α] (y : List α) :
    0 ≤ maxAbs y := by
  induction y with
  | nil => simp [maxAbs_nil]
  | cons a t ih => rw [maxAbs_cons]; exact le_trans ih (le_max_right _ _)

theorem le_maxAbs {α : Type} [LinearOrderedField α] {y : List α} {x : α}
    (hx : x ∈ y) : |x| ≤ maxAbs y := by
  induction y with
  | nil => simp at hx
  | cons a t ih =>
    rw [maxAbs_cons]
    rcases List.mem_cons.1 hx with h | h
    · subst h; exact le_max_left _ _
    · exact le_trans (ih h) (le_max_right _ _)

theorem maxAbs_eq_zero {α : Type} [LinearOrderedField α] {y : List α}
    (h : ∀ x ∈ y, x = 0) : maxAbs y = 0 := by
  induction y with
  | nil => rfl
  | cons a t ih =>
    rw [maxAbs_cons, h a (List.mem_cons_self a t), abs_zero,
      ih fun x hx => h x (List.mem_cons_of_mem a hx)]
    simp

theorem maxAbs_pos {α : Type} [LinearOrderedField α] {y : List α} {x : α}
    (hx : x ∈ y) (hx0 : x ≠ 0) : 0 < maxAbs y :=
  lt_of_lt_of_le (abs_pos.2 hx0) (le_maxAbs hx)

theorem maxAbs_mem {α : Type} [LinearOrderedField α] {y : List α} (h : y ≠ []) :
    maxAbs y ∈ y.map (fun a => |a|) := by
  induction y with
  | nil => exact absurd rfl h
  | cons a t ih =>
    rw [maxAbs_cons]
    cases t with
    | nil => simp [maxAbs_nil, abs_nonneg a]
    | cons b t2 =>
      rcases le_total (maxAbs (b :: t2)) |a| with hle | hle
      · rw [max_eq_left hle]; exact List.mem_cons_self _ _
      · rw [max_eq_right hle]
        exact List.mem_cons_of_mem _ (ih (by simp))

theorem maxAbs_map_div {α : Type} [LinearOrderedField α] {m : α} (hm : 0 < m)
    (y : List α) : maxAbs (y.map (fun a => a / m)) = maxAbs y / m := by
  induction y with
  | nil => simp [maxAbs_nil]
  | cons a t ih =>
    rw [List.map_cons, maxAbs_cons, maxAbs_cons, ih, abs_div, abs_of_pos hm]
    rcases le_total |a| (maxAbs t) with hle | hle
    · rw [max_eq_right hle, max_eq_right ((div_le_div_iff_of_pos_right hm).2 hle)]
    · rw [max_eq_left hle, max_eq_left ((div_le_div_iff_of_pos_right hm).2 hle)]

theorem norm_of_ne_zero {α : Type} [LinearOrderedField α] [DecidableEq α]
    {y : List α} (h : maxAbs y ≠ 0) :
    norm y = some (y.map (fun a => a / maxAbs y)) := by
  rw [norm, if_neg h]

theorem norm_eq_some {α : Type} [LinearOrderedField α] [DecidableEq α]
    {y z : List α} (h : norm y = some z) :
    maxAbs y ≠ 0 ∧ z = y.map (fun a => a / maxAbs y) := by
  rw [norm] at h
  by_cases h0 : maxAbs y = 0
  · rw [if_pos h0] at h; exact absurd h (by simp)
  · rw [if_neg h0] at h
    exact ⟨h0, (Option.some_inj.1 h).symm⟩

theorem maxAbs_norm_some {α : Type} [LinearOrderedField α] [DecidableEq α]
    {y z : List α} (h : norm y = some z) :
    maxAbs z = 1 ∧ z.length = y.length := by
  obtain ⟨h0, hz⟩ := norm_eq_some h
  have hpos : 0 < maxAbs y := lt_of_le_of_ne (maxAbs_nonneg y) (Ne.symm h0)
  subst hz
  exact ⟨by rw [maxAbs_map_div hpos, div_self h0], y.length_map _⟩

/-! ### Claims C3 and C6: the Signal Normalizer -/

/-- C3: `norm` applied to a nonempty all-zero signal hits the
division-by-zero condition (modelled as `none`); on a signal with at least
one non-zero sample it divides every sample by the maximum absolute value
present in the signal (`maxAbs y` is attained by some sample and bounds
all of them). -/
theorem norm_allzero_fails_nonzero_divides (y : List ℚ) (hy : y ≠ []) :
    ((∀ x ∈ y, x = 0) → norm y = none) ∧
    ((∃ x ∈ y, x ≠ 0) →
      norm y = some (y.map (fun a => a / maxAbs y)) ∧
      maxAbs y ∈ y.map (fun a => |a|) ∧ ∀ x ∈ y, |x| ≤ maxAbs y) := by
  constructor
  · intro h0
    rw [norm, if_pos (maxAbs_eq_zero h0)]
  · rintro ⟨x, hx, hx0⟩
    exact ⟨norm_of_ne_zero (ne_of_gt (maxAbs_pos hx hx0)), maxAbs_mem hy,
      fun z hz => le_maxAbs hz⟩

/-- Witness for C3: the all-zero signal `[0,0]` fails; `[3,-4]` is divided
by its peak `4`. -/
theorem norm_allzero_fails_nonzero_divides_witness :
    norm ([0, 0] : List ℚ) = none ∧ norm ([3, -4] : List ℚ) = some [3/4, -1] := by
  constructor
  · exact (norm_allzero_fails_nonzero_divides [0, 0] (by decide)).1 (by decide)
  · have h := ((norm_allzero_fails_nonzero_divides [3, -4] (by decide)).2
      ⟨3, by decide, by decide⟩).1
    rw [h]; norm_num [maxAbs_cons, maxAbs_nil]

/-- C6: normalization of a signal with a non-zero sample succeeds, achieves
unit peak (`maxAbs` of the normalized signal is exactly 1), and is
idempotent: normalizing the normalized signal returns it unchanged. -/
theorem norm_idem_unit_peak (y : List ℚ) (h : ∃ x ∈ y, x ≠ 0) :
    norm y = some (y.map (fun a => a / maxAbs y)) ∧
    maxAbs (y.map (fun a => a / maxAbs y)) = 1 ∧
    norm (y.map (fun a => a / maxAbs y)) = norm y := by
  obtain ⟨x, hx, hx0⟩ := h
  have hpos : 0 < maxAbs y := maxAbs_pos hx hx0
  have hne : maxAbs y ≠ 0 := ne_of_gt hpos
  have h1 : maxAbs (y.map (fun a => a / maxAbs y)) = 1 := by
    rw [maxAbs_map_div hpos, div_self hne]
  refine ⟨norm_of_ne_zero hne, h1, ?_⟩
  rw [norm_of_ne_zero (by rw [h1]; exact one_ne_zero), h1,
    norm_of_ne_zero hne]
  simp

/-- Witness for C6 at the signal `[0, 2]`. -/
theorem norm_idem_unit_peak_witness :
    norm ([0, 2] : List ℚ) = some (([0, 2] : List ℚ).map (fun a => a / maxAbs ([0, 2] : List ℚ))) ∧
    maxAbs (([0, 2] : List ℚ).map (fun a => a / maxAbs ([0, 2] : List ℚ))) = 1 ∧
    norm (([0, 2] : List ℚ).map (fun a => a / maxAbs ([0, 2] : List ℚ))) = norm ([0, 2] : List ℚ) :=
  norm_idem_unit_peak [0, 2] ⟨2, by decide, by decide⟩

/-! ### Helper lemmas about the cepstral window -/

theorem getD_replicate (k : ℕ) (a d : ℚ) :
    ∀ i : ℕ, (List.replicate k a).getD i d = if i < k then a else d := by
  induction k with
  | zero => intro i; simp
  | succ k ih =>
    intro i
    cases i with
    | zero => simp [List.replicate_succ]
    | succ i =>
      rw [List.replicate_succ, List.getD_cons_succ, ih i]
      simp [Nat.succ_lt_succ_iff]

theorem rcepsWindow_length (n : ℕ) :
    (rcepsWindow n).length = 1 + (n / 2 - 1) + (1 - n % 2) + (n / 2 - 1) := by
  simp [rcepsWindow]
  omega

theorem rcepsWindow_getD (n i : ℕ) (h2 : 2 ≤ n) (he : n % 2 = 0) (hi : i < n) :
    (rcepsWindow n).getD i 0 =
      if i = 0 then 1 else if i < n / 2 then 2 else if i = n / 2 then 1 else 0 := by
  have hn2 : 1 ≤ n / 2 := by omega
  simp only [rcepsWindow, he, List.append_assoc, List.singleton_append,
    List.cons_append, List.nil_append]
  cases i with
  | zero => simp
  | succ j =>
    rw [List.getD_cons_succ]
    by_cases hj1 : j < n / 2 - 1
    · rw [List.getD_append (List.replicate (n / 2 - 1) 2) _ 0 j
        (by simpa using hj1), getD_replicate, if_pos hj1, if_neg (by omega),
        if_pos (by omega)]
    · rw [List.getD_append_right (List.replicate (n / 2 - 1) 2) _ 0 j
        (by simp; omega)]
      simp only [List.length_replicate]
      by_cases hj2 : j + 1 = n / 2
      · rw [List.getD_append (List.replicate (1 - 0) 1) _ 0 _ (by simp; omega),
          getD_replicate, if_pos (by omega), if_neg (by omega),
          if_neg (by omega), if_pos hj2]
      · rw [List.getD_append_right (List.replicate (1 - 0) 1) _ 0 _
          (by simp; omega)]
        simp only [List.length_replicate]
        rw [getD_replicate, ite_self, if_neg (by omega : ¬(j + 1 = 0)),
          if_neg (by omega : ¬(j + 1 < n / 2)), if_neg hj2]

/-! ### Claim C1: the minimum-phase window center tap -/

/-- C1 counterexample: at even length `n = 4` the code's window is
`[1, 2, 1, 0]` (center tap `w[2] = 1`), while the claimed window puts
`w[n/2] = 1` only for odd `n`, hence claims `[1, 2, 0, 0]`.  The two
disagree. -/
theorem rceps_window_center_tap_cex : rcepsWindow 4 ≠ rcepsWindowSpec 4 := by
  decide

/-- C1 amended: for every even `n ≥ 2` the window built in `rceps` has
length `n` and the values `w[0]=1`, `w[1..n/2-1]=2`, `w[n/2]=1` (center tap
present exactly when `n` is even), `w[n/2+1..]=0`.  (For odd `n` the
window has length `n - 2`, see the claim about odd lengths.) -/
theorem rceps_window_even_char (n : ℕ) (h2 : 2 ≤ n) (he : n % 2 = 0) :
    rcepsWindow n = rcepsWindowEvenSpec n := by
  have hlen : (rcepsWindow n).length = n := by rw [rcepsWindow_length]; omega
  have hlen2 : (rcepsWindowEvenSpec n).length = n := by
    simp [rcepsWindowEvenSpec]
  apply List.ext_getElem (by rw [hlen, hlen2])
  intro i hi1 hi2
  have hi : i < n := by rwa [hlen] at hi1
  have hL : (rcepsWindow n)[i] = (rcepsWindow n).getD i 0 :=
    (List.getD_eq_getElem _ _ hi1).symm
  rw [hL, rcepsWindow_getD n i h2 he hi]
  simp [rcepsWindowEvenSpec]

/-- Witness for C1 (amended) at `n = 6`. -/
theorem rceps_window_even_char_witness : rcepsWindow 6 = rcepsWindowEvenSpec 6 :=
  rceps_window_even_char 6 (by decide) (by decide)

/-! ### Claim C9: odd-length behaviour of the window -/

/-- C9 counterexample: at odd `n = 3` the window indeed has length
`n - 2 = 1`, but the elementwise product with a length-3 cepstrum is NOT
undefined: numpy broadcasts the length-1 window, so `rceps` runs without
error at `n = 3` (the claim asserts the product is undefined for every odd
`n ≥ 3`). -/
theorem rceps_odd_broadcast_cex :
    (rcepsWindow 3).length = 3 - 2 ∧
    elemMul (rcepsWindow 3) [5, 7, 11] = some [5, 7, 11] := by
  refine ⟨by decide, ?_⟩
  norm_num [elemMul, rcepsWindow]

/-- C9 amended: for odd `n` (`n ≥ 3`) the window has length `n - 2`; the
elementwise product with a length-`n` cepstrum fails for odd `n ≥ 5`
(lengths `n-2` and `n`, neither equal nor broadcastable), while at `n = 3`
the length-1 window broadcasts; for even `n ≥ 2` the window has length
exactly `n` and the product is defined. -/
theorem rceps_odd_window_parity (n : ℕ) (y : List ℚ) (h2 : 2 ≤ n)
    (hy : y.length = n) :
    (n % 2 = 1 → (rcepsWindow n).length = n - 2) ∧
    (n % 2 = 1 → 5 ≤ n → elemMul (rcepsWindow n) y = none) ∧
    (n % 2 = 0 → (rcepsWindow n).length = n ∧
      (elemMul (rcepsWindow n) y).isSome = true) := by
  refine ⟨fun ho => by rw [rcepsWindow_length]; omega, fun ho h5 => ?_, fun he => ?_⟩
  · have hw : (rcepsWindow n).length = n - 2 := by rw [rcepsWindow_length]; omega
    rw [elemMul, hw, hy, if_neg (by omega), if_neg (by omega), if_neg (by omega)]
  · have hw : (rcepsWindow n).length = n := by rw [rcepsWindow_length]; omega
    refine ⟨hw, ?_⟩
    rw [elemMul, hw, hy, if_pos rfl]
    rfl

/-- Witness for C9 (amended): odd `n = 7` gives a length-5 window and a
failing product; even `n = 6` gives a length-6 window and a defined
product. -/
theorem rceps_odd_window_parity_witness :
    (rcepsWindow 7).length = 7 - 2 ∧
    elemMul (rcepsWindow 7) (List.replicate 7 0) = none ∧
    (rcepsWindow 6).length = 6 ∧
    (elemMul (rcepsWindow 6) (List.replicate 6 0)).isSome = true :=
  ⟨(rceps_odd_window_parity 7 (List.replicate 7 0) (by decide) (by decide)).1
      (by decide),
    (rceps_odd_window_parity 7 (List.replicate 7 0) (by decide) (by decide)).2.1
      (by decide) (by decide),
    ((rceps_odd_window_parity 6 (List.replicate 6 0) (by decide) (by decide)).2.2
      (by decide)).1,
    ((rceps_odd_window_parity 6 (List.replicate 6 0) (by decide) (by decide)).2.2
      (by decide)).2⟩

/-! ### Helper lemmas about `lfilter` and `parfilt` -/

theorem lfilterStep_length (b a x : List ℚ) (n : ℕ) :
    (lfilterStep b a x n).length = n := by
  induction n with
  | zero => rfl
  | succ m ih => simp [lfilterStep, ih]

theorem lfilter_length (b a x : List ℚ) : (lfilter b a x).length = x.length :=
  lfilterStep_length b a x x.length

theorem getD_zipWith_add {x1 x2 : List ℚ} (h : x1.length = x2.length) :
    ∀ j : ℕ, (List.zipWith (fun u v => u + v) x1 x2).getD j 0 =
      x1.getD j 0 + x2.getD j 0 := by
  induction x1 generalizing x2 with
  | nil =>
    cases x2 with
    | nil => intro j; simp
    | cons b t => intro j; simp at h
  | cons a t ih =>
    cases x2 with
    | nil => intro j; simp at h
    | cons b t2 =>
      intro j
      cases j with
      | zero => simp
      | succ j => simpa using ih (by simpa using h) j

theorem zipWith_add_comm4 (a : List ℚ) :
    ∀ b c d : List ℚ,
      List.zipWith (fun u v => u + v) (List.zipWith (fun u v => u + v) a b)
        (List.zipWith (fun u v => u + v) c d) =
      List.zipWith (fun u v => u + v) (List.zipWith (fun u v => u + v) a c)
        (List.zipWith (fun u v => u + v) b d) := by
  induction a with
  | nil => intro b c d; simp
  | cons x ta ih =>
    intro b c d
    cases b with
    | nil => simp
    | cons y tb =>
      cases c with
      | nil => simp
      | cons z tc =>
        cases d with
        | nil => simp
        | cons w td =>
          simp only [List.zipWith_cons_cons, ih]
          rw [add_add_add_comm]

theorem lfilterStep_add (b a x1 x2 : List ℚ) (h : x1.length = x2.length) :
    ∀ n : ℕ, lfilterStep b a (List.zipWith (fun u v => u + v) x1 x2) n =
      List.zipWith (fun u v => u + v) (lfilterStep b a x1 n)
        (lfilterStep b a x2 n) := by
  intro n
  induction n with
  | zero => rfl
  | succ m ih =>
    have hlen : (lfilterStep b a x1 m).length = (lfilterStep b a x2 m).length := by
      rw [lfilterStep_length, lfilterStep_length]
    rw [lfilterStep, lfilterStep, lfilterStep, ih,
      List.zipWith_append _ _ _ _ _ hlen]
    congr 1
    have hS : (∑ i ∈ Finset.range (m + 1),
        b.getD i 0 * (List.zipWith (fun u v => u + v) x1 x2).getD (m - i) 0) =
        (∑ i ∈ Finset.range (m + 1), b.getD i 0 * x1.getD (m - i) 0) +
        (∑ i ∈ Finset.range (m + 1), b.getD i 0 * x2.getD (m - i) 0) := by
      rw [← Finset.sum_add_distrib]
      exact Finset.sum_congr rfl fun i _ => by
        rw [getD_zipWith_add h, mul_add]
    have hT : (∑ j ∈ Finset.range m, a.getD (j + 1) 0 *
        (List.zipWith (fun u v => u + v) (lfilterStep b a x1 m)
          (lfilterStep b a x2 m)).getD (m - 1 - j) 0) =
        (∑ j ∈ Finset.range m,
          a.getD (j + 1) 0 * (lfilterStep b a x1 m).getD (m - 1 - j) 0) +
        (∑ j ∈ Finset.range m,
          a.getD (j + 1) 0 * (lfilterStep b a x2 m).getD (m - 1 - j) 0) := by
      rw [← Finset.sum_add_distrib]
      exact Finset.sum_congr rfl fun j _ => by
        rw [getD_zipWith_add hlen, mul_add]
    rw [hS, hT]
    simp only [List.zipWith_cons_cons, List.zipWith_nil_right]
    congr 1
    rw [← add_div]
    congr 1
    ring

theorem lfilter_add (b a x1 x2 : List ℚ) (h : x1.length = x2.length) :
    lfilter b a (List.zipWith (fun u v => u + v) x1 x2) =
      List.zipWith (fun u v => u + v) (lfilter b a x1) (lfilter b a x2) := by
  rw [lfilter, lfilter, lfilter, List.length_zipWith, h, min_self]
  exact lfilterStep_add b a x1 x2 h x2.length

theorem zipWith_add_replicate_zero (n : ℕ) :
    List.zipWith (fun u v : ℚ => u + v) (List.replicate n 0)
      (List.replicate n 0) = List.replicate n 0 := by
  induction n with
  | zero => rfl
  | succ m ih => simp [List.replicate_succ, ih]

theorem foldl_zipWith_add (B A : List (List ℚ)) (x1 x2 : List ℚ)
    (h : x1.length = x2.length) (cols : List ℕ) :
    ∀ y1 y2 : List ℚ,
      List.foldl (fun y k => List.zipWith (fun u v => u + v) y
        (lfilter (B.getD k []) (A.getD k [])
          (List.zipWith (fun u v => u + v) x1 x2)))
        (List.zipWith (fun u v => u + v) y1 y2) cols =
      List.zipWith (fun u v => u + v)
        (List.foldl (fun y k => List.zipWith (fun u v => u + v) y
          (lfilter (B.getD k []) (A.getD k []) x1)) y1 cols)
        (List.foldl (fun y k => List.zipWith (fun u v => u + v) y
          (lfilter (B.getD k []) (A.getD k []) x2)) y2 cols) := by
  induction cols with
  | nil => intro y1 y2; rfl
  | cons k ks ih =>
    intro y1 y2
    simp only [List.foldl_cons]
    rw [lfilter_add _ _ _ _ h, zipWith_add_comm4]
    exact ih _ _

/-! ### Claim C5: additivity of the Parallel Filter Synthesizer -/

/-- C5: `parfilt` is additive in its signal input: filtering the samplewise
sum of two equal-length signals equals the samplewise sum of filtering each
signal separately. -/
theorem parfilt_additive (Bm Am : List (List ℚ)) (FIR x1 x2 : List ℚ)
    (h : x1.length = x2.length) :
    parfilt Bm Am FIR (List.zipWith (fun u v => u + v) x1 x2) =
      List.zipWith (fun u v => u + v) (parfilt Bm Am FIR x1)
        (parfilt Bm Am FIR x2) := by
  rw [parfilt, parfilt, parfilt]
  have hbase : List.replicate
      ((List.zipWith (fun u v : ℚ => u + v) x1 x2).length) (0 : ℚ) =
      List.zipWith (fun u v : ℚ => u + v) (List.replicate x1.length 0)
        (List.replicate x2.length 0) := by
    rw [List.length_zipWith, h, min_self, ← h, zipWith_add_replicate_zero, h]
  rw [hbase, foldl_zipWith_add Bm Am x1 x2 h, lfilter_add _ _ _ _ h,
    zipWith_add_comm4]

/-- Witness for C5 on a concrete one-section filter bank. -/
theorem parfilt_additive_witness :
    parfilt [[1, 0, 0]] [[1, -1/2, 0]] [2]
        (List.zipWith (fun u v => u + v) [1, 0, 0, 0] [0, 1, 0, 0]) =
      List.zipWith (fun u v => u + v)
        (parfilt [[1, 0, 0]] [[1, -1/2, 0]] [2] [1, 0, 0, 0])
        (parfilt [[1, 0, 0]] [[1, -1/2, 0]] [2] [0, 1, 0, 0]) :=
  parfilt_additive [[1, 0, 0]] [[1, -1/2, 0]] [2] [1, 0, 0, 0] [0, 1, 0, 0] rfl

/-! ### Claim C10: `parfilt` preserves the input length -/

theorem foldl_zipWith_length (B A : List (List ℚ)) (x : List ℚ)
    (cols : List ℕ) :
    ∀ y : List ℚ, y.length = x.length →
      (List.foldl (fun y k => List.zipWith (fun u v => u + v) y
        (lfilter (B.getD k []) (A.getD k []) x)) y cols).length = x.length := by
  induction cols with
  | nil => intro y hy; simpa using hy
  | cons k ks ih =>
    intro y hy
    simp only [List.foldl_cons]
    exact ih _ (by rw [List.length_zipWith, hy, lfilter_length, min_self])

/-- C10: for every coefficient set and every input signal `x`, `parfilt`
returns a signal of exactly the length of `x` (each section and the FIR
direct path are length-preserving and the outputs are summed samplewise). -/
theorem parfilt_length (Bm Am : List (List ℚ)) (FIR x : List ℚ) :
    (parfilt Bm Am FIR x).length = x.length := by
  rw [parfilt, List.length_zipWith,
    foldl_zipWith_length Bm Am x _ _ (List.length_replicate _ _),
    lfilter_length, min_self]

/-! ### Helper lemmas about the pole grid -/

theorem abs_poleOf (w : ℝ) : Complex.abs (poleOf w) = R ^ (w / Real.pi) := by
  have hR : (0 : ℝ) < R ^ (w / Real.pi) :=
    Real.rpow_pos_of_pos (by norm_num [R]) _
  rw [poleOf, map_mul, Complex.abs_ofReal, Complex.abs_exp, abs_of_pos hR]
  have hre : (Complex.I * (w : ℂ)).re = 0 := by
    simp
  rw [hre, Real.exp_zero, mul_one]

theorem logspace_head_mem (a b : ℝ) (n : ℕ) (hn : 0 < n) :
    (10 : ℝ) ^ a ∈ logspace a b n := by
  rw [logspace]
  have h0 : (10 : ℝ) ^ a =
      (10 : ℝ) ^ (a + ((0 : ℕ) : ℝ) * (b - a) / ((n : ℝ) - 1)) := by
    push_cast
    rw [zero_mul, zero_div, add_zero]
  rw [h0]
  exact List.mem_map_of_mem
    (fun i : ℕ => (10 : ℝ) ^ (a + (i : ℝ) * (b - a) / ((n : ℝ) - 1)))
    (List.mem_range.2 hn)

theorem thirty_mem_fplog : (30 : ℝ) ∈ fplog := by
  have h := logspace_head_mem (Real.logb 10 30) (Real.logb 10 200) 13
    (by norm_num)
  rw [Real.rpow_logb (by norm_num) (by norm_num) (by norm_num)] at h
  exact List.mem_append_left _ h

theorem wp30_mem : (2 * Real.pi * 30 / 44100) ∈ wpGrid 44100 :=
  List.mem_map.2 ⟨30, thirty_mem_fplog, rfl⟩

theorem pole30_mem : poleOf (2 * Real.pi * 30 / 44100) ∈ plog 44100 :=
  List.mem_append_left _ (List.mem_map_of_mem poleOf wp30_mem)

/-! ### Claim C2: pole magnitudes -/

/-- C2 counterexample: not every pole has magnitude `R = 0.5`, and the
failure is far outside any tolerance.  At sample rate `Fs = 44100` the
pole at the lowest grid frequency (30 Hz) has magnitude
`R^(ω/π) = (1/2)^(1/735) > 0.9`. -/
theorem pole_magnitude_cex :
    ¬ (∀ q ∈ plog 44100, Complex.abs q = R) ∧
    Complex.abs (poleOf (2 * Real.pi * 30 / 44100)) > 9 / 10 := by
  have hexp : (2 * Real.pi * 30 / 44100) / Real.pi = 1 / 735 := by
    field_simp
    ring
  have hbig : Complex.abs (poleOf (2 * Real.pi * 30 / 44100)) > 9 / 10 := by
    rw [abs_poleOf, hexp]
    show (9 : ℝ) / 10 < R ^ ((1 : ℝ) / 735)
    by_contra hle
    push_neg at hle
    have h1 : ((9 : ℝ) / 10) ^ (735 : ℕ) < 1 / 2 := by norm_num
    have h2 : (R ^ ((1 : ℝ) / 735)) ^ (735 : ℕ) ≤ ((9 : ℝ) / 10) ^ (735 : ℕ) :=
      pow_le_pow_left₀ (Real.rpow_nonneg (by norm_num [R]) _) hle 735
    have h3 : (R ^ ((1 : ℝ) / 735)) ^ (735 : ℕ) = (1 : ℝ) / 2 := by
      rw [← Real.rpow_natCast (R ^ ((1 : ℝ) / 735)) 735,
        ← Real.rpow_mul (by norm_num [R])]
      norm_num [R]
    rw [h3] at h2
    linarith
  refine ⟨fun h => ?_, hbig⟩
  have habs := h _ pole30_mem
  rw [habs] at hbig
  norm_num [R] at hbig

/-- C2 amended: every pole of the grid has magnitude `R^(ω/π)` where `ω`
is its normalized angular frequency — the radius shrinks toward Nyquist
rather than staying at `R`.  The list of pole magnitudes is exactly the
list of `R^(ω/π)` over the frequency grid (once for the poles, once for
their conjugates). -/
theorem pole_magnitude_formula (Fs : ℝ) :
    (plog Fs).map Complex.abs =
      ((wpGrid Fs).map fun w => R ^ (w / Real.pi)) ++
        ((wpGrid Fs).map fun w => R ^ (w / Real.pi)) := by
  rw [plog, List.map_append, List.map_map, List.map_map, List.map_map]
  congr 1
  · exact List.map_congr_left fun w _ => abs_poleOf w
  · refine List.map_congr_left fun w _ => ?_
    simp only [Function.comp_apply]
    rw [Complex.abs_conj, abs_poleOf]

/-! ### Claim C7: conjugate closure and cardinality of the pole set -/

/-- C7: the pole set has exactly `2 × (13 + 12) = 50` elements and is
closed under complex conjugation. -/
theorem plog_card_conj_closed (Fs : ℝ) :
    (plog Fs).length = 50 ∧
    ∀ q ∈ plog Fs, (starRingEnd ℂ) q ∈ plog Fs := by
  constructor
  · have hf : fplog.length = 25 := rfl
    simp only [plog, wpGrid, List.length_append, List.length_map]
    rw [hf]
  · intro q hq
    rcases List.mem_append.1 hq with hq | hq
    · exact List.mem_append_right _ (List.mem_map_of_mem _ hq)
    · rcases List.mem_map.1 hq with ⟨p, hp, rfl⟩
      rw [Complex.conj_conj]
      exact List.mem_append_left _ hp

/-- Witness for C7 at `Fs = 44100` and the 30 Hz pole. -/
theorem plog_card_conj_closed_witness :
    (plog 44100).length = 50 ∧
    (starRingEnd ℂ) (poleOf (2 * Real.pi * 30 / 44100)) ∈ plog 44100 :=
  ⟨(plog_card_conj_closed 44100).1,
    (plog_card_conj_closed 44100).2 _ pole30_mem⟩

/-! ### Helper lemmas: DFT kernel values and concrete transforms -/

theorem wN_one : wN 1 = 1 := by
  rw [wN]
  norm_num
  rw [Complex.exp_neg, Complex.exp_two_pi_mul_I, inv_one]

theorem wN_two : wN 2 = -1 := by
  rw [wN]
  push_cast
  have h : -(2 * (Real.pi : ℂ) * Complex.I) / 2 = -((Real.pi : ℂ) * Complex.I) := by
    ring
  rw [h, Complex.exp_neg, Complex.exp_pi_mul_I]
  norm_num

theorem wN_four : wN 4 = -Complex.I := by
  rw [wN]
  push_cast
  have h : -(2 * (Real.pi : ℂ) * Complex.I) / 4 =
      -((Real.pi / 2 : ℝ) * Complex.I) := by
    push_cast
    ring
  rw [h, Complex.exp_neg, Complex.exp_mul_I]
  push_cast [Real.cos_pi_div_two, Real.sin_pi_div_two]
  simp

theorem range_one : List.range 1 = [0] := by decide

theorem range_two : List.range 2 = [0, 1] := by decide

theorem range_four : List.range 4 = [0, 1, 2, 3] := by decide

theorem I3 : Complex.I ^ 3 = -Complex.I := by
  rw [pow_succ, Complex.I_sq]
  ring

theorem I6 : Complex.I ^ 6 = -1 := by
  rw [show (6 : ℕ) = 2 * 3 by norm_num, pow_mul, Complex.I_sq]
  ring

theorem I9 : Complex.I ^ 9 = Complex.I := by
  rw [show (9 : ℕ) = 2 * 4 + 1 by norm_num, pow_succ, pow_mul, Complex.I_sq]
  ring

theorem fft_length (x : List ℂ) : (fft x).length = x.length := by
  simp [fft]

theorem ifft_length (X : List ℂ) : (ifft X).length = X.length := by
  simp [ifft]

theorem hanning_length (M : ℕ) : (hanning M).length = M := by
  rw [hanning]
  split <;> simp

theorem ifftshift_length (l : List ℝ) : (ifftshift l).length = l.length := by
  simp [ifftshift]
  omega

theorem resample_length (x : List ℂ) (num : ℕ) (win : Bool) :
    (resample x num win).length = num := by
  rw [resample, List.length_map, ifft_length]
  have hX : (if win then
      List.zipWith (fun (w : ℝ) (z : ℂ) => (w : ℂ) * z) (ifftshift (hanning x.length))
        (fft x)
    else fft x).length = x.length := by
    split
    · rw [List.length_zipWith, ifftshift_length, hanning_length, fft_length,
        min_self]
    · exact fft_length x
  rw [List.length_append, List.length_append, List.length_take,
    List.length_replicate, List.length_drop, hX]
  omega

theorem ifft_one_one : ifft [(1 : ℂ), 1] = [1, 0] := by
  norm_num [ifft, dftPoint, wN_two, range_two, List.zipWith]

theorem fft_one_zero : fft [(1 : ℂ), 0] = [1, 1] := by
  norm_num [fft, dftPoint, wN_two, range_two, List.zipWith]

theorem ifft_Y4 : ifft [(1 : ℂ), 0, 0, 1] =
    [1 / 2, (1 - Complex.I) / 4, 0, (1 + Complex.I) / 4] := by
  have hinv : (wN 4)⁻¹ = Complex.I := by
    rw [wN_four, inv_neg, Complex.inv_I, neg_neg]
  norm_num [ifft, dftPoint, range_four, List.zipWith, hinv, I3, I6, I9]
  ring

theorem resample_target : resample [(1 : ℂ), 0] 4 false =
    [1, (1 - Complex.I) / 2, 0, (1 + Complex.I) / 2] := by
  rw [resample]
  norm_num [fft_one_zero, List.replicate]
  rw [show (1 : ℂ) :: [(0 : ℂ), 0, 1] = [(1 : ℂ), 0, 0, 1] from rfl, ifft_Y4]
  norm_num
  constructor <;> ring

theorem fft_res4 : fft [(1 : ℂ), (1 - Complex.I) / 2, 0, (1 + Complex.I) / 2] =
    [2, 0, 0, 2] := by
  norm_num [fft, dftPoint, range_four, List.zipWith, wN_four, neg_pow, I3, I6, I9]
  refine ⟨by ring, by linear_combination Complex.I_sq, by ring,
    by linear_combination (-1 : ℂ) * Complex.I_sq⟩

theorem targetSpectrum_four_eq : targetSpectrum 4 = [2, 0, 0, 2] := by
  rw [targetSpectrum, targetCol, ifft_one_one, resample_target, fft_res4]

theorem fft_single (z : ℂ) : fft [z] = [z] := by
  norm_num [fft, dftPoint, List.zipWith, range_one]

theorem ifft_single (z : ℂ) : ifft [z] = [z] := by
  norm_num [ifft, dftPoint, List.zipWith, range_one]

theorem hanning_one : hanning 1 = [1] := by
  norm_num [hanning, List.replicate]

theorem resample_single (z : ℂ) : resample [z] 1 true = [z] := by
  rw [resample]
  norm_num [fft_single, hanning_one, ifftshift, ifft_single]

theorem finalize_zero : finalize [(0 : ℂ)] 1 = none := by
  rw [finalize, resample_single, ifft_single]
  norm_num [norm, maxAbs]

theorem finalize_one : finalize [(1 : ℂ)] 1 = some [1] := by
  rw [finalize, resample_single, ifft_single]
  norm_num [norm, maxAbs]

/-! ### Claim C4: the Equalizer Finalizer -/

/-- C4 counterexample: the all-zero input spectrum (here of length 1, with
`ntaps = 1`) makes the finalizer's time-domain signal identically zero, so
normalization hits division by zero and no unit-peak signal of length
`ntaps` is returned. -/
theorem finalizer_zero_spectrum_cex :
    ¬ ∃ y : List ℝ, finalize [(0 : ℂ)] 1 = some y ∧ y.length = 1 ∧
      maxAbs y = 1 := by
  rintro ⟨y, hy, -, -⟩
  rw [finalize_zero] at hy
  exact Option.noConfusion hy

/-- C4 amended: whenever the Equalizer Finalizer succeeds (the resampled
time-domain signal is not identically zero, so normalization is defined),
its output has exactly `ntaps` samples and unit peak amplitude —
regardless of the input spectrum's length. -/
theorem finalize_length_peak (S : List ℂ) (ntaps : ℕ) (y : List ℝ)
    (h : finalize S ntaps = some y) : y.length = ntaps ∧ maxAbs y = 1 := by
  obtain ⟨h1, h2⟩ := maxAbs_norm_some h
  refine ⟨?_, h1⟩
  rw [h2, List.length_map, ifft_length, resample_length]

/-- Witness for C4 (amended): the constant spectrum `[1]` with
`ntaps = 1` finalizes to `[1]`, of length 1 and unit peak. -/
theorem finalize_length_peak_witness :
    ([(1 : ℝ)]).length = 1 ∧ maxAbs [(1 : ℝ)] = 1 :=
  finalize_length_peak [(1 : ℂ)] 1 [1] finalize_one

/-! ### Claim C8: target-curve resampling is not magnitude-preserving -/

/-- C8 counterexample: with the two-row target `[[0,1.0],[1,1.0]]` and a
minimum-phase response of length 4, the resampled target spectrum is
`[2, 0, 0, 2]`: bin 1 has magnitude 0, not ≈ 1 (false even with a generous
tolerance of 1/2). -/
theorem target_resample_cex :
    ¬ (∀ k < 4, |Complex.abs ((targetSpectrum 4).getD k 0) - 1| ≤ 1 / 2) := by
  intro h
  have h1 := h 1 (by norm_num)
  rw [targetSpectrum_four_eq] at h1
  norm_num at h1

/-- C8 amended: the curve-file branch `fft(resample(ifft(t[:,1]), m))`
does not produce a flat spectrum: for `m = 4` it equals `[2, 0, 0, 2]` —
magnitude `m/2` at bins 0 and `m-1` and zero in between, because the
band-limited time-domain resampling zero-pads the middle of the
two-point spectrum and the overall scale is `m/Nx`. -/
theorem target_resample_spectrum : targetSpectrum 4 = [2, 0, 0, 2] :=
  targetSpectrum_four_eq

end Porc
